import Mathlib

/-! Verification of the star-contour generator (`igor.cpp`).

The source is embedded shallowly over the real numbers: each C++ function
becomes a Lean definition with the same name, `double` becomes `ℝ`
(exact arithmetic), `int` becomes `ℤ`, and `std::vector<co_t>` becomes
`List (ℝ × ℝ)`.  The `assert` preconditions of `contour` are modelled by
the guarded variant `contourChecked`, which returns `none` exactly when
an assertion would abort the process.
-/

open Real

namespace Igor

/-- Function `sctoxy`: length `s`, circumference `c` and angular offset `o`
to Cartesian coordinates (igor.cpp:34-40). -/
noncomputable def sctoxy (s c o : ℝ) : ℝ × ℝ :=
  (s * Real.cos (c / s + o), s * Real.sin (c / s + o))

/-- Function `rot`: rotation of `(x,y)` by angle `alpha` (igor.cpp:44-50). -/
noncomputable def rot (xy : ℝ × ℝ) (alpha : ℝ) : ℝ × ℝ :=
  (xy.1 * Real.cos alpha - xy.2 * Real.sin alpha,
   xy.1 * Real.sin alpha + xy.2 * Real.cos alpha)

/-- Function `mirr`: mirror of `(x,y)` on the axis through the origin at angle `c`
(igor.cpp:61-74): with `m = (cos c, sin c)` and `sca = ⟪xy, m⟫`,
the result is `2·sca·m − xy`. -/
noncomputable def mirr (xy : ℝ × ℝ) (c : ℝ) : ℝ × ℝ :=
  (2 * (xy.1 * Real.cos c + xy.2 * Real.sin c) * Real.cos c - xy.1,
   2 * (xy.1 * Real.cos c + xy.2 * Real.sin c) * Real.sin c - xy.2)

/-- Zone boundary `s1 = R + h` (igor.cpp:103). -/
def s1 (R h : ℝ) : ℝ := R + h

/-- Zone boundary `s2 = R·(1 + hf·rf) + h` (igor.cpp:104). -/
def s2 (R h rf hf : ℝ) : ℝ := R * (1 + hf * rf) + h

/-- Zone boundary `s3 = R·(1 + rf) + h` (igor.cpp:105). -/
def s3 (R h rf : ℝ) : ℝ := R * (1 + rf) + h

/-- Zone-1 circumference `c1(s) = 2π·s` (igor.cpp:107). -/
noncomputable def c1 (s : ℝ) : ℝ := 2 * π * s

/-- Zone-2 circumference (igor.cpp:108). -/
noncomputable def c2 (R h rf hf s : ℝ) : ℝ :=
  c1 (s1 R h) - 2 * π * (h + R * hf * rf) * (s - s1 R h) / (R * hf * rf)

/-- Zone-3 circumference (igor.cpp:109). -/
noncomputable def c3 (R h rf hf s : ℝ) : ℝ :=
  c2 R h rf hf (s2 R h rf hf) - 2 * π * (s - s2 R h rf hf)

/-- The piecewise circumference function `c` (igor.cpp:111-120). -/
noncomputable def cfun (R h rf hf s : ℝ) : ℝ :=
  if s < s1 R h then c1 s
  else if s < s2 R h rf hf then c2 R h rf hf s
  else c3 R h rf hf s

/-- Radial step `ds = (s3 − s1)/K` (igor.cpp:122). -/
noncomputable def ds (R h rf : ℝ) (K : ℤ) : ℝ := (s3 R h rf - s1 R h) / (K : ℝ)

/-- Sample abscissa `sk(k) = s1 + ds·k` (igor.cpp:123-126). -/
noncomputable def sk (R h rf : ℝ) (K k : ℤ) : ℝ := s1 R h + ds R h rf K * (k : ℝ)

/-- Ladder length `Kappa = ⌊K + c(s3)/(ds·N·2)⌋` (igor.cpp:127). -/
noncomputable def Kappa (R h rf hf : ℝ) (K N : ℤ) : ℤ :=
  ⌊(K : ℝ) + cfun R h rf hf (s3 R h rf) / (ds R h rf K * (N : ℝ) * 2)⌋

/-- The `k`-th ladder entry: profile sample for `k < K` (igor.cpp:132-136),
closure-tail sample for `k ≥ K` (igor.cpp:139-143). -/
noncomputable def sample (R h rf hf : ℝ) (K N k : ℤ) : ℝ × ℝ :=
  if k < K then (sk R h rf K k, cfun R h rf hf (sk R h rf K k))
  else (sk R h rf K K,
        cfun R h rf hf (sk R h rf K K) - ds R h rf K * 2 * (N : ℝ) * ((k : ℝ) - (K : ℝ)))

/-- Function `contour` (igor.cpp:93-145): the ladder of `Kappa` samples. -/
noncomputable def contour (R h rf hf : ℝ) (K N : ℤ) : List (ℝ × ℝ) :=
  (List.range (Kappa R h rf hf K N).toNat).map (fun k : ℕ => sample R h rf hf K N (k : ℤ))

/-- The conjunction of `contour`'s `assert` preconditions (igor.cpp:95-101). -/
def Valid (R h rf hf : ℝ) (N : ℤ) : Prop :=
  rf ≤ 1 ∧ hf ≤ 1 ∧ 0 < rf ∧ 0 < hf ∧ 0 < N ∧ 0 < R ∧ 0 ≤ h

open scoped Classical in
/-- Function `contour` with its `assert` guards made explicit: `none` models the
fatal abort, taken before any sampling (and hence before the zone-2
division) happens. -/
noncomputable def contourChecked (R h rf hf : ℝ) (K N : ℤ) : Option (List (ℝ × ℝ)) :=
  if Valid R h rf hf N then some (contour R h rf hf K N) else none

/-- Function `contourtoxy` (igor.cpp:149-159): map each `(s,c)` sample through
`sctoxy` with circumference scaled by `0.5/N` and zero offset. -/
noncomputable def contourtoxy (sc0 : List (ℝ × ℝ)) (N : ℤ) : List (ℝ × ℝ) :=
  sc0.map (fun p => sctoxy p.1 (p.2 * (0.5 / (N : ℝ))) 0)

/-- Jag angle increment `dalpha = 2π/N` (igor.cpp:168). -/
noncomputable def dalpha (N : ℤ) : ℝ := 2 * π / (N : ℝ)

/-- One jag of the star (the body of the loop over `n`, igor.cpp:176-183):
the sector reversed and rotated by `n·dalpha`, then the sector rotated by
`n·dalpha` and mirrored on the axis at angle `(n+0.5)·dalpha`. -/
noncomputable def starBlock (xy0 : List (ℝ × ℝ)) (N : ℤ) (n : ℕ) : List (ℝ × ℝ) :=
  xy0.reverse.map (fun p => rot p ((n : ℝ) * dalpha N)) ++
    xy0.map (fun p => mirr (rot p ((n : ℝ) * dalpha N)) (((n : ℝ) + 0.5) * dalpha N))

/-- Function `xy0toN` (igor.cpp:164-187): concatenate the `N` jag blocks. -/
noncomputable def xy0toN (xy0 : List (ℝ × ℝ)) (N : ℤ) : List (ℝ × ℝ) :=
  (List.range N.toNat).flatMap (starBlock xy0 N)

/-- Function `radtoN` (igor.cpp:213-216): `⌈2πr/cmax⌉`. -/
noncomputable def radtoN (r cmax : ℝ) : ℤ := ⌈2 * π * r / cmax⌉

/-! Basic consequences of the preconditions. -/

theorem ds_eq (R h rf : ℝ) (K : ℤ) : ds R h rf K = R * rf / (K : ℝ) := by
  unfold ds s3 s1
  ring_nf

theorem ds_pos {R h rf hf : ℝ} {N K : ℤ} (hv : Valid R h rf hf N) (hK : 1 ≤ K) :
    0 < ds R h rf K := by
  obtain ⟨hrf1, hhf1, hrf0, hhf0, hN, hR, hh⟩ := hv
  rw [ds_eq]
  have hKpos : (0 : ℝ) < (K : ℝ) := by exact_mod_cast lt_of_lt_of_le Int.one_pos hK
  positivity

/-- The circumference the code evaluates at `s3` is `2πR(1−rf)`. -/
theorem cfun_s3 {R h rf hf : ℝ} {N : ℤ} (hv : Valid R h rf hf N) :
    cfun R h rf hf (s3 R h rf) = 2 * π * R * (1 - rf) := by
  obtain ⟨hrf1, hhf1, hrf0, hhf0, hN, hR, hh⟩ := hv
  have hprod : R * hf * rf ≠ 0 := by positivity
  have h13 : ¬ s3 R h rf < s1 R h := by
    simp only [s1, s3, not_lt]
    nlinarith
  have h23 : ¬ s3 R h rf < s2 R h rf hf := by
    simp only [s2, s3, not_lt]
    nlinarith [mul_nonneg (mul_nonneg hR.le hrf0.le) (sub_nonneg.mpr hhf1)]
  unfold cfun
  rw [if_neg h13, if_neg h23]
  unfold c3 c2 c1 s1 s2 s3
  field_simp
  ring

theorem cfun_s3_nonneg {R h rf hf : ℝ} {N : ℤ} (hv : Valid R h rf hf N) :
    0 ≤ cfun R h rf hf (s3 R h rf) := by
  rw [cfun_s3 hv]
  obtain ⟨hrf1, hhf1, hrf0, hhf0, hN, hR, hh⟩ := hv
  have h1 : (0:ℝ) ≤ 1 - rf := by linarith
  have h2 : (0:ℝ) ≤ 2 * π * R := by positivity
  nlinarith [mul_nonneg h2 h1]

theorem Npos_real {R h rf hf : ℝ} {N : ℤ} (hv : Valid R h rf hf N) :
    (0 : ℝ) < (N : ℝ) := by
  exact_mod_cast hv.2.2.2.2.1

/-- Definition `Kappa` splits as `K` plus the floor of the tail-count ratio. -/
theorem Kappa_eq (R h rf hf : ℝ) (K N : ℤ) :
    Kappa R h rf hf K N =
      K + ⌊cfun R h rf hf (s3 R h rf) / (ds R h rf K * (N : ℝ) * 2)⌋ := by
  unfold Kappa
  exact Int.floor_int_add K _

theorem Kappa_ge {R h rf hf : ℝ} {K N : ℤ} (hv : Valid R h rf hf N) (hK : 1 ≤ K) :
    K ≤ Kappa R h rf hf K N := by
  rw [Kappa_eq]
  have hfloor : 0 ≤ ⌊cfun R h rf hf (s3 R h rf) / (ds R h rf K * (N : ℝ) * 2)⌋ := by
    apply Int.floor_nonneg.mpr
    apply div_nonneg (cfun_s3_nonneg hv)
    have h1 := ds_pos hv hK
    have h2 := Npos_real hv
    positivity
  omega

/-! Claim theorems. -/

/-- C1: for every input satisfying the preconditions (`R>0`, `h≥0`,
`0<rf≤1`, `0<hf≤1`, `N>0`) together with `K≥1`, the derived count
`Kappa = ⌊K + c(s3)/(ds·N·2)⌋` satisfies `Kappa ≥ K`, so the fatal
`Kappa < K` check is unreachable; this rests on
`c(s3) = 2πR(1−rf) ≥ 0` and `ds > 0`. -/
theorem C1_kappa_ge_K (R h rf hf : ℝ) (K N : ℤ)
    (hv : Valid R h rf hf N) (hK : 1 ≤ K) :
    K ≤ Kappa R h rf hf K N :=
  Kappa_ge hv hK

/-- C1 witness: the theorem applied at
`R=1, h=0, rf=1/2, hf=1/2, K=2, N=3`. -/
theorem C1_witness : Valid 1 0 (1/2) (1/2) 3 ∧ (1:ℤ) ≤ 2 ∧
    (2 : ℤ) ≤ Kappa 1 0 (1/2) (1/2) 2 3 :=
  ⟨by norm_num [Valid], by norm_num,
    C1_kappa_ge_K 1 0 (1/2) (1/2) 2 3 (by norm_num [Valid]) (by norm_num)⟩

/-- C2 counterexample: at `R=1, h=0, rf=1/2, hf=1/2, K=1, N=4` all
preconditions hold and `c(s3) = π > 0`, yet `Kappa = ⌊1 + π/4⌋ = 1 = K`:
a strictly positive remaining circumference does not force `Kappa > K`. -/
theorem C2_counterexample :
    Valid 1 0 (1/2) (1/2) 4 ∧ (1:ℤ) ≤ 1 ∧
    0 < cfun 1 0 (1/2) (1/2) (s3 1 0 (1/2)) ∧
    Kappa 1 0 (1/2) (1/2) 1 4 = 1 := by
  have hv : Valid 1 0 (1/2) (1/2) 4 := by norm_num [Valid]
  refine ⟨hv, le_refl 1, ?_, ?_⟩
  · rw [cfun_s3 hv]
    have := pi_pos
    nlinarith
  · rw [Kappa_eq, cfun_s3 hv]
    have harg : 2 * π * 1 * (1 - 1/2) / (ds 1 0 (1/2) 1 * ((4:ℤ) : ℝ) * 2) = π / 4 := by
      rw [ds_eq]
      push_cast
      ring
    rw [harg]
    have hfl : ⌊π / 4⌋ = 0 := by
      apply Int.floor_eq_zero_iff.mpr
      constructor
      · positivity
      · have := pi_lt_four
        norm_num
        linarith
    rw [hfl]
    norm_num

/-- C2 amended: under the preconditions and `K ≥ 1`, `Kappa = K` holds
exactly when the remaining circumference at `s3` is smaller than one tail
step, `c(s3) < ds·N·2` (rather than only when `c(s3) = 0`). -/
theorem C2_kappa_eq_K_iff (R h rf hf : ℝ) (K N : ℤ)
    (hv : Valid R h rf hf N) (hK : 1 ≤ K) :
    (Kappa R h rf hf K N = K ↔
      cfun R h rf hf (s3 R h rf) < ds R h rf K * (N : ℝ) * 2) := by
  have hd : 0 < ds R h rf K * (N : ℝ) * 2 := by
    have h1 := ds_pos hv hK
    have h2 := Npos_real hv
    positivity
  rw [Kappa_eq]
  constructor
  · intro hEq
    have h0 : ⌊cfun R h rf hf (s3 R h rf) / (ds R h rf K * (N : ℝ) * 2)⌋ = 0 := by omega
    have hlt := Int.lt_floor_add_one
      (cfun R h rf hf (s3 R h rf) / (ds R h rf K * (N : ℝ) * 2))
    rw [h0] at hlt
    norm_num at hlt
    exact (div_lt_one hd).mp hlt
  · intro hlt
    have h0 : ⌊cfun R h rf hf (s3 R h rf) / (ds R h rf K * (N : ℝ) * 2)⌋ = 0 :=
      Int.floor_eq_zero_iff.mpr
        ⟨div_nonneg (cfun_s3_nonneg hv) hd.le, (div_lt_one hd).mpr hlt⟩
    omega

/-- C2 witness: the amended equivalence applied at
`R=1, h=0, rf=1/2, hf=1/2, K=1, N=4`. -/
theorem C2_witness : Valid 1 0 (1/2) (1/2) 4 ∧ (1:ℤ) ≤ 1 ∧
    (Kappa 1 0 (1/2) (1/2) 1 4 = 1 ↔
      cfun 1 0 (1/2) (1/2) (s3 1 0 (1/2)) < ds 1 0 (1/2) 1 * ((4:ℤ) : ℝ) * 2) :=
  ⟨by norm_num [Valid], le_refl 1,
    C2_kappa_eq_K_iff 1 0 (1/2) (1/2) 1 4 (by norm_num [Valid]) (le_refl 1)⟩

/-- C4: for every input satisfying the preconditions the piecewise
circumference function is continuous at both breakpoints:
`c1(s1) = c2(s1)` and `c2(s2) = c3(s2)`, exactly in exact arithmetic. -/
theorem C4_continuity (R h rf hf : ℝ) (N : ℤ) (hv : Valid R h rf hf N) :
    c1 (s1 R h) = c2 R h rf hf (s1 R h) ∧
    c2 R h rf hf (s2 R h rf hf) = c3 R h rf hf (s2 R h rf hf) := by
  constructor
  · simp [c2, sub_self]
  · simp [c3, sub_self]

/-- C4 witness: continuity at the breakpoints for
`R=1, h=0, rf=1/2, hf=1/2, N=3`. -/
theorem C4_witness : Valid 1 0 (1/2) (1/2) 3 ∧
    (c1 (s1 1 0) = c2 1 0 (1/2) (1/2) (s1 1 0) ∧
     c2 1 0 (1/2) (1/2) (s2 1 0 (1/2) (1/2)) =
       c3 1 0 (1/2) (1/2) (s2 1 0 (1/2) (1/2))) :=
  ⟨by norm_num [Valid], C4_continuity 1 0 (1/2) (1/2) 3 (by norm_num [Valid])⟩

/-- C8: for every input violating a precondition (`rf ≤ 0`, `hf ≤ 0`,
`rf > 1`, `hf > 1`, `R ≤ 0`, `h < 0` or `N ≤ 0`) the guarded contour
generation aborts fatally and produces no ladder — in particular the
zone-2 division by `R·hf·rf` is never reached. -/
theorem C8_precondition_rejection (R h rf hf : ℝ) (K N : ℤ)
    (hbad : rf ≤ 0 ∨ hf ≤ 0 ∨ 1 < rf ∨ 1 < hf ∨ R ≤ 0 ∨ h < 0 ∨ N ≤ 0) :
    contourChecked R h rf hf K N = none := by
  unfold contourChecked
  rw [if_neg]
  rintro ⟨hrf1, hhf1, hrf0, hhf0, hN, hR, hh⟩
  rcases hbad with hb | hb | hb | hb | hb | hb | hb
  · linarith
  · linarith
  · linarith
  · linarith
  · linarith
  · linarith
  · omega

/-- C8 witness: `rf = 0` (with every other parameter valid) yields no
ladder. -/
theorem C8_witness :
    ((0:ℝ) ≤ 0 ∨ (1/2:ℝ) ≤ 0 ∨ 1 < (0:ℝ) ∨ 1 < (1/2:ℝ) ∨ (1:ℝ) ≤ 0 ∨
      (0:ℝ) < 0 ∨ (3:ℤ) ≤ 0) ∧
    contourChecked 1 0 0 (1/2) 5 3 = none :=
  ⟨Or.inl le_rfl,
    C8_precondition_rejection 1 0 0 (1/2) 5 3 (Or.inl le_rfl)⟩

/-- C9: under the stated preconditions plus `K ≥ 1` every divisor in the
pipeline is nonzero — `K` in `ds = (s3−s1)/K`, `R·hf·rf` in zone 2,
`ds·N·2` in `Kappa`, `N` in the mapper's `0.5/N`, and every ladder
abscissa satisfies `s ≥ s1 = R+h > 0`, so `c/s` in `sctoxy` is safe —
while `K` itself is checked by no precondition: `K = 0` with otherwise
valid parameters passes the guard and reaches `(s3−s1)/K`. -/
theorem C9_division_safety (R h rf hf : ℝ) (K N : ℤ) (hv : Valid R h rf hf N) :
    (1 ≤ K →
      (K : ℝ) ≠ 0 ∧ R * hf * rf ≠ 0 ∧ ds R h rf K * (N : ℝ) * 2 ≠ 0 ∧ (N : ℝ) ≠ 0 ∧
        ∀ p ∈ contour R h rf hf K N, s1 R h ≤ p.1 ∧ 0 < p.1) ∧
    (contourChecked R h rf hf 0 N).isSome = true := by
  obtain ⟨hrf1, hhf1, hrf0, hhf0, hN, hR, hh⟩ := hv
  have hvv : Valid R h rf hf N := ⟨hrf1, hhf1, hrf0, hhf0, hN, hR, hh⟩
  constructor
  · intro hK
    have hKR : (0:ℝ) < (K : ℝ) := by exact_mod_cast lt_of_lt_of_le Int.one_pos hK
    have hNR := Npos_real hvv
    have hds := ds_pos hvv hK
    refine ⟨ne_of_gt hKR, by positivity, by positivity, ne_of_gt hNR, ?_⟩
    intro p hp
    rw [contour, List.mem_map] at hp
    obtain ⟨k, hk, rfl⟩ := hp
    have hks1 : ∀ m : ℤ, 0 ≤ m → s1 R h ≤ sk R h rf K m := by
      intro m hm
      have hnn : 0 ≤ ds R h rf K * (m : ℝ) :=
        mul_nonneg hds.le (by exact_mod_cast hm)
      unfold sk
      linarith
    have hs1pos : 0 < s1 R h := by
      unfold s1
      linarith
    unfold sample
    by_cases hcase : (k : ℤ) < K
    · rw [if_pos hcase]
      exact ⟨hks1 _ (by omega), lt_of_lt_of_le hs1pos (hks1 _ (by omega))⟩
    · rw [if_neg hcase]
      exact ⟨hks1 K (by omega), lt_of_lt_of_le hs1pos (hks1 K (by omega))⟩
  · unfold contourChecked
    rw [if_pos hvv]
    rfl

/-- C9 witness: the theorem applied at `R=1, h=0, rf=1/2, hf=1/2, K=2, N=3`. -/
theorem C9_witness : Valid 1 0 (1/2) (1/2) 3 ∧
    ((1 ≤ (2:ℤ) →
      ((2:ℤ) : ℝ) ≠ 0 ∧ (1:ℝ) * (1/2) * (1/2) ≠ 0 ∧
        ds 1 0 (1/2) 2 * ((3:ℤ) : ℝ) * 2 ≠ 0 ∧ ((3:ℤ) : ℝ) ≠ 0 ∧
        ∀ p ∈ contour 1 0 (1/2) (1/2) 2 3, s1 1 0 ≤ p.1 ∧ 0 < p.1) ∧
      (contourChecked 1 0 (1/2) (1/2) 0 3).isSome = true) :=
  ⟨by norm_num [Valid], C9_division_safety 1 0 (1/2) (1/2) 2 3 (by norm_num [Valid])⟩

theorem sk_K_eq_s3 (R h rf : ℝ) (K : ℤ) (hK : K ≠ 0) : sk R h rf K K = s3 R h rf := by
  have hKR : (K : ℝ) ≠ 0 := Int.cast_ne_zero.mpr hK
  unfold sk ds
  field_simp

theorem sk_lt_sk {R h rf hf : ℝ} {N K : ℤ} (hv : Valid R h rf hf N) (hK : 1 ≤ K)
    {a b : ℤ} (hab : a < b) : sk R h rf K a < sk R h rf K b := by
  have hds := ds_pos hv hK
  have habR : (a : ℝ) < (b : ℝ) := by exact_mod_cast hab
  unfold sk
  nlinarith

/-- On `[s1, s3]` the piecewise circumference function is non-increasing. -/
theorem cfun_antitone {R h rf hf : ℝ} {N : ℤ} (hv : Valid R h rf hf N)
    {s t : ℝ} (hs : s1 R h ≤ s) (hst : s ≤ t) (ht : t ≤ s3 R h rf) :
    cfun R h rf hf t ≤ cfun R h rf hf s := by
  obtain ⟨hrf1, hhf1, hrf0, hhf0, hN, hR, hh⟩ := hv
  have hP : 0 < R * hf * rf := by positivity
  have hc2mono : ∀ u v : ℝ, u ≤ v → c2 R h rf hf v ≤ c2 R h rf hf u := by
    intro u v huv
    have key : c2 R h rf hf u - c2 R h rf hf v
        = 2 * π * (h + R * hf * rf) * (v - u) / (R * hf * rf) := by
      unfold c2 c1
      field_simp
      ring
    have h1 : (0:ℝ) ≤ v - u := by linarith
    have h2 : (0:ℝ) ≤ h + R * hf * rf := by positivity
    have h3 : (0:ℝ) ≤ 2 * π := by positivity
    have hnn : 0 ≤ 2 * π * (h + R * hf * rf) * (v - u) / (R * hf * rf) :=
      div_nonneg (mul_nonneg (mul_nonneg h3 h2) h1) hP.le
    linarith
  have hc3mono : ∀ u v : ℝ, u ≤ v → c3 R h rf hf v ≤ c3 R h rf hf u := by
    intro u v huv
    unfold c3
    have hpi := pi_pos
    nlinarith
  have hns : ¬ s < s1 R h := not_lt.mpr hs
  have hnt : ¬ t < s1 R h := not_lt.mpr (le_trans hs hst)
  have hc23 : c3 R h rf hf (s2 R h rf hf) = c2 R h rf hf (s2 R h rf hf) := by
    simp [c3, sub_self]
  unfold cfun
  rw [if_neg hns, if_neg hnt]
  by_cases hts2 : t < s2 R h rf hf
  · rw [if_pos hts2, if_pos (lt_of_le_of_lt hst hts2)]
    exact hc2mono s t hst
  · rw [if_neg hts2]
    by_cases hss2 : s < s2 R h rf hf
    · rw [if_pos hss2]
      calc c3 R h rf hf t ≤ c3 R h rf hf (s2 R h rf hf) := hc3mono _ _ (not_lt.mp hts2)
        _ = c2 R h rf hf (s2 R h rf hf) := hc23
        _ ≤ c2 R h rf hf s := hc2mono _ _ hss2.le
    · rw [if_neg hss2]
      exact hc3mono s t hst

theorem contour_length (R h rf hf : ℝ) (K N : ℤ) :
    (contour R h rf hf K N).length = (Kappa R h rf hf K N).toNat := by
  simp [contour]

theorem contour_getD (R h rf hf : ℝ) (K N : ℤ) (i : ℕ)
    (hi : i < (Kappa R h rf hf K N).toNat) :
    (contour R h rf hf K N).getD i (0, 0) = sample R h rf hf K N (i : ℤ) := by
  have hlen : i < (contour R h rf hf K N).length := by
    rwa [contour_length]
  rw [List.getD_eq_getElem _ _ hlen]
  unfold contour
  simp

/-- C5: under the preconditions and `K ≥ 1` the ladder is monotone: the
abscissa `s` is strictly increasing over the `K` profile samples,
constant (equal to `sk(K)`) over the closure tail, and the circumference
function is non-increasing on the whole span `[s1, s3]`. -/
theorem C5_ladder_monotone (R h rf hf : ℝ) (K N : ℤ)
    (hv : Valid R h rf hf N) (hK : 1 ≤ K) :
    (∀ i j : ℕ, i < j → (j : ℤ) < K →
      ((contour R h rf hf K N).getD i (0, 0)).1 <
        ((contour R h rf hf K N).getD j (0, 0)).1) ∧
    (∀ i : ℕ, (K : ℤ) ≤ (i : ℤ) → i < (contour R h rf hf K N).length →
      ((contour R h rf hf K N).getD i (0, 0)).1 = sk R h rf K K) ∧
    (∀ s t : ℝ, s1 R h ≤ s → s ≤ t → t ≤ s3 R h rf →
      cfun R h rf hf t ≤ cfun R h rf hf s) := by
  have hKK := Kappa_ge hv hK
  refine ⟨?_, ?_, fun s t hs hst ht => cfun_antitone hv hs hst ht⟩
  · intro i j hij hjK
    have hiKap : i < (Kappa R h rf hf K N).toNat := by omega
    have hjKap : j < (Kappa R h rf hf K N).toNat := by omega
    rw [contour_getD R h rf hf K N i hiKap, contour_getD R h rf hf K N j hjKap]
    unfold sample
    rw [if_pos (show (i:ℤ) < K by omega), if_pos hjK]
    exact sk_lt_sk hv hK (by exact_mod_cast hij)
  · intro i hKi hilen
    have hiKap : i < (Kappa R h rf hf K N).toNat := by
      rwa [contour_length] at hilen
    rw [contour_getD R h rf hf K N i hiKap]
    unfold sample
    rw [if_neg (not_lt.mpr hKi)]

/-- C5 witness: the theorem applied at `R=1, h=0, rf=1/2, hf=1/2, K=2, N=3`. -/
theorem C5_witness : Valid 1 0 (1/2) (1/2) 3 ∧ (1 ≤ (2:ℤ)) ∧
    ((∀ i j : ℕ, i < j → (j : ℤ) < 2 →
      ((contour 1 0 (1/2) (1/2) 2 3).getD i (0, 0)).1 <
        ((contour 1 0 (1/2) (1/2) 2 3).getD j (0, 0)).1) ∧
    (∀ i : ℕ, (2 : ℤ) ≤ (i : ℤ) → i < (contour 1 0 (1/2) (1/2) 2 3).length →
      ((contour 1 0 (1/2) (1/2) 2 3).getD i (0, 0)).1 = sk 1 0 (1/2) 2 2) ∧
    (∀ s t : ℝ, s1 1 0 ≤ s → s ≤ t → t ≤ s3 1 0 (1/2) →
      cfun 1 0 (1/2) (1/2) t ≤ cfun 1 0 (1/2) (1/2) s)) :=
  ⟨by norm_num [Valid], by norm_num,
    C5_ladder_monotone 1 0 (1/2) (1/2) 2 3 (by norm_num [Valid]) (by norm_num)⟩

theorem sk_mem_span {R h rf hf : ℝ} {N K : ℤ} (hv : Valid R h rf hf N) (hK : 1 ≤ K)
    {k : ℤ} (h0 : 0 ≤ k) (hkK : k ≤ K) :
    s1 R h ≤ sk R h rf K k ∧ sk R h rf K k ≤ s3 R h rf := by
  have hds := ds_pos hv hK
  constructor
  · have hnn : 0 ≤ ds R h rf K * (k : ℝ) :=
      mul_nonneg hds.le (by exact_mod_cast h0)
    unfold sk
    linarith
  · rcases eq_or_lt_of_le hkK with hEq | hlt
    · rw [hEq, sk_K_eq_s3 R h rf K (by omega)]
    · have hlt2 : sk R h rf K k < sk R h rf K K := sk_lt_sk hv hK hlt
      rw [sk_K_eq_s3 R h rf K (by omega)] at hlt2
      exact hlt2.le

/-- C10: under the preconditions and `K ≥ 1`, every circumference value
in the ladder is nonnegative: the profile samples are bounded below by
`c(s3) ≥ 0` and the linearly unwinding closure tail never drops below
zero. -/
theorem C10_circ_nonneg (R h rf hf : ℝ) (K N : ℤ)
    (hv : Valid R h rf hf N) (hK : 1 ≤ K) :
    0 ≤ cfun R h rf hf (s3 R h rf) ∧
    (∀ i : ℕ, (i : ℤ) < K →
      cfun R h rf hf (s3 R h rf) ≤ ((contour R h rf hf K N).getD i (0, 0)).2) ∧
    (∀ i : ℕ, i < (contour R h rf hf K N).length →
      0 ≤ ((contour R h rf hf K N).getD i (0, 0)).2) := by
  have hKK := Kappa_ge hv hK
  have hc3 := cfun_s3_nonneg hv
  have hds := ds_pos hv hK
  have hNR := Npos_real hv
  have hprofile : ∀ i : ℕ, (i : ℤ) < K →
      cfun R h rf hf (s3 R h rf) ≤ cfun R h rf hf (sk R h rf K (i : ℤ)) := by
    intro i hiK
    obtain ⟨hlo, hhi⟩ := sk_mem_span hv hK (show (0:ℤ) ≤ (i:ℤ) by omega) (le_of_lt hiK)
    exact cfun_antitone hv hlo hhi le_rfl
  refine ⟨hc3, ?_, ?_⟩
  · intro i hiK
    have hiKap : i < (Kappa R h rf hf K N).toNat := by omega
    rw [contour_getD R h rf hf K N i hiKap]
    unfold sample
    rw [if_pos hiK]
    exact hprofile i hiK
  · intro i hilen
    have hiKap : i < (Kappa R h rf hf K N).toNat := by
      rwa [contour_length] at hilen
    rw [contour_getD R h rf hf K N i hiKap]
    unfold sample
    by_cases hiK : (i : ℤ) < K
    · rw [if_pos hiK]
      exact le_trans hc3 (hprofile i hiK)
    · rw [if_neg hiK]
      have hskK : sk R h rf K K = s3 R h rf := sk_K_eq_s3 R h rf K (by omega)
      rw [hskK]
      have hd : 0 < ds R h rf K * (N : ℝ) * 2 := by positivity
      have hfl := Int.floor_le
        (cfun R h rf hf (s3 R h rf) / (ds R h rf K * (N : ℝ) * 2))
      have hiKa : (i : ℤ) ≤ Kappa R h rf hf K N - 1 := by omega
      have hiKaR : (i : ℝ) - (K : ℝ)
          ≤ cfun R h rf hf (s3 R h rf) / (ds R h rf K * (N : ℝ) * 2) := by
        have h1 : ((i : ℤ) : ℝ) ≤ ((Kappa R h rf hf K N : ℤ) : ℝ) - 1 := by
          exact_mod_cast Int.le_sub_one_iff.mpr (by omega)
        have h2 : ((Kappa R h rf hf K N : ℤ) : ℝ)
            = (K : ℝ) + ((⌊cfun R h rf hf (s3 R h rf) /
                (ds R h rf K * (N : ℝ) * 2)⌋ : ℤ) : ℝ) := by
          rw [Kappa_eq]
          push_cast
          ring
        push_cast at h1 h2 ⊢
        linarith
      have hmul : ds R h rf K * (N : ℝ) * 2 * ((i : ℝ) - (K : ℝ))
          ≤ cfun R h rf hf (s3 R h rf) := by
        have := mul_le_mul_of_nonneg_left hiKaR hd.le
        rwa [mul_div_cancel₀ _ (ne_of_gt hd)] at this
      have hring : ds R h rf K * 2 * (N : ℝ) * ((i : ℝ) - (K : ℝ))
          = ds R h rf K * (N : ℝ) * 2 * ((i : ℝ) - (K : ℝ)) := by ring
      push_cast
      simp only [hring]
      linarith

/-- C10 witness: the theorem applied at `R=1, h=0, rf=1/2, hf=1/2, K=2, N=3`. -/
theorem C10_witness : Valid 1 0 (1/2) (1/2) 3 ∧ (1 ≤ (2:ℤ)) ∧
    (0 ≤ cfun 1 0 (1/2) (1/2) (s3 1 0 (1/2)) ∧
    (∀ i : ℕ, (i : ℤ) < 2 →
      cfun 1 0 (1/2) (1/2) (s3 1 0 (1/2)) ≤
        ((contour 1 0 (1/2) (1/2) 2 3).getD i (0, 0)).2) ∧
    (∀ i : ℕ, i < (contour 1 0 (1/2) (1/2) 2 3).length →
      0 ≤ ((contour 1 0 (1/2) (1/2) 2 3).getD i (0, 0)).2)) :=
  ⟨by norm_num [Valid], by norm_num,
    C10_circ_nonneg 1 0 (1/2) (1/2) 2 3 (by norm_num [Valid]) (by norm_num)⟩

theorem starBlock_length (xy0 : List (ℝ × ℝ)) (N : ℤ) (n : ℕ) :
    (starBlock xy0 N n).length = 2 * xy0.length := by
  simp [starBlock]
  omega

theorem flatMap_range_length {α : Type} (f : ℕ → List α) (L : ℕ)
    (hf : ∀ m, (f m).length = L) (k : ℕ) :
    ((List.range k).flatMap f).length = k * L := by
  induction k with
  | zero => simp
  | succ k ih =>
    rw [List.range_succ, List.flatMap_append, List.length_append, ih]
    simp [hf, Nat.succ_mul]

/-- C6: for every sector `xy0` and jag count `N ≥ 1`, the expanded star
has length exactly `2·N·|xy0|`. -/
theorem C6_star_size (xy0 : List (ℝ × ℝ)) (N : ℤ) (hN : 1 ≤ N) :
    (xy0toN xy0 N).length = 2 * N.toNat * xy0.length := by
  unfold xy0toN
  rw [flatMap_range_length (starBlock xy0 N) (2 * xy0.length) (starBlock_length xy0 N)]
  ring

/-- C6 witness: the theorem applied to the one-point sector and `N = 2`. -/
theorem C6_witness : (1 ≤ (2:ℤ)) ∧
    (xy0toN [((1:ℝ), (0:ℝ))] 2).length = 2 * (2:ℤ).toNat * [((1:ℝ), (0:ℝ))].length :=
  ⟨by norm_num, C6_star_size [((1:ℝ), (0:ℝ))] 2 (by norm_num)⟩

theorem sctoxy_norm (s c o : ℝ) :
    (sctoxy s c o).1 ^ 2 + (sctoxy s c o).2 ^ 2 = s ^ 2 := by
  unfold sctoxy
  simp only
  have htrig := Real.sin_sq_add_cos_sq (c / s + o)
  linear_combination s ^ 2 * htrig

/-- C7: every mapped Cartesian point round-trips: its squared norm equals
the square of the source arc length `s`, exactly in exact arithmetic. -/
theorem C7_polar_roundtrip (sc0 : List (ℝ × ℝ)) (N : ℤ) (i : ℕ)
    (hi : i < sc0.length) (hN : 1 ≤ N) (hs : 0 < (sc0.getD i (0, 0)).1) :
    ((contourtoxy sc0 N).getD i (0, 0)).1 ^ 2 +
      ((contourtoxy sc0 N).getD i (0, 0)).2 ^ 2 = (sc0.getD i (0, 0)).1 ^ 2 := by
  have hlen : i < (contourtoxy sc0 N).length := by
    simpa [contourtoxy] using hi
  rw [List.getD_eq_getElem _ _ hlen, List.getD_eq_getElem _ _ hi]
  unfold contourtoxy
  simp only [List.getElem_map]
  exact sctoxy_norm _ _ _

/-- C7 witness: the theorem applied to the singleton ladder `[(1, 3)]`
with `N = 2` and `i = 0`. -/
theorem C7_witness : (0 < [((1:ℝ), (3:ℝ))].length) ∧ (1 ≤ (2:ℤ)) ∧
    (0 < ([((1:ℝ), (3:ℝ))].getD 0 (0, 0)).1) ∧
    (((contourtoxy [((1:ℝ), (3:ℝ))] 2).getD 0 (0, 0)).1 ^ 2 +
      ((contourtoxy [((1:ℝ), (3:ℝ))] 2).getD 0 (0, 0)).2 ^ 2
        = ([((1:ℝ), (3:ℝ))].getD 0 (0, 0)).1 ^ 2) :=
  ⟨by norm_num, by norm_num, by norm_num,
    C7_polar_roundtrip [((1:ℝ), (3:ℝ))] 2 0 (by norm_num) (by norm_num) (by norm_num)⟩

theorem flatMap_range_getD {α : Type} (d : α) (L : ℕ) :
    ∀ (n N : ℕ) (f : ℕ → List α), (∀ m, (f m).length = L) → n < N → ∀ r, r < L →
      ((List.range N).flatMap f).getD (n * L + r) d = (f n).getD r d := by
  intro n
  induction n with
  | zero =>
    intro N f hf hn r hr
    obtain ⟨M, rfl⟩ : ∃ M, N = M + 1 := ⟨N - 1, by omega⟩
    rw [List.range_succ_eq_map, List.flatMap_cons]
    simp only [Nat.zero_mul, Nat.zero_add]
    exact List.getD_append _ _ d r (by rw [hf 0]; exact hr)
  | succ m ih =>
    intro N f hf hn r hr
    obtain ⟨M, rfl⟩ : ∃ M, N = M + 1 := ⟨N - 1, by omega⟩
    rw [List.range_succ_eq_map, List.flatMap_cons, List.flatMap_map]
    rw [List.getD_append_right _ _ d _ (by rw [hf 0]; nlinarith)]
    have hidx : (m + 1) * L + r - (f 0).length = m * L + r := by
      rw [hf 0]
      ring_nf
      omega
    rw [hidx]
    exact ih M (fun a => f (a + 1)) (fun a => hf (a + 1)) (by omega) r hr

theorem starBlock_getD_left (xy0 : List (ℝ × ℝ)) (N : ℤ) (n j : ℕ)
    (hj : j < xy0.length) :
    (starBlock xy0 N n).getD j (0, 0) =
      rot (xy0.getD (xy0.length - 1 - j) (0, 0)) ((n : ℝ) * dalpha N) := by
  unfold starBlock
  rw [List.getD_append _ _ _ j (by simpa using hj)]
  have hjrev : j < (xy0.reverse.map
      (fun p => rot p ((n : ℝ) * dalpha N))).length := by
    simpa using hj
  rw [List.getD_eq_getElem _ _ hjrev, List.getElem_map,
    List.getElem_reverse, List.getD_eq_getElem _ _ (by omega)]

theorem starBlock_getD_right (xy0 : List (ℝ × ℝ)) (N : ℤ) (n j : ℕ)
    (hj : j < xy0.length) :
    (starBlock xy0 N n).getD (xy0.length + j) (0, 0) =
      mirr (rot (xy0.getD j (0, 0)) ((n : ℝ) * dalpha N))
        (((n : ℝ) + 0.5) * dalpha N) := by
  unfold starBlock
  rw [List.getD_append_right _ _ _ _ (by simp)]
  have hidx : xy0.length + j -
      (xy0.reverse.map (fun p => rot p ((n : ℝ) * dalpha N))).length = j := by
    simp
  rw [hidx]
  have hjm : j < (xy0.map (fun p =>
      mirr (rot p ((n : ℝ) * dalpha N)) (((n : ℝ) + 0.5) * dalpha N))).length := by
    simpa using hj
  rw [List.getD_eq_getElem _ _ hjm, List.getElem_map,
    List.getD_eq_getElem _ _ hj]

/-- C3: for a sector `xy0` of length `I` and `0 ≤ n < N`, `0 ≤ j < I`,
the star satisfies `Star[2nI + j] = rot(xy0[I−1−j], n·dalpha)` and
`Star[2nI + I + j] = mirr(rot(xy0[j], n·dalpha), (n+0.5)·dalpha)`,
with `dalpha = 2π/N`. -/
theorem C3_star_elements (xy0 : List (ℝ × ℝ)) (N : ℤ) (n j : ℕ)
    (hn : (n : ℤ) < N) (hj : j < xy0.length) :
    (xy0toN xy0 N).getD (2 * n * xy0.length + j) (0, 0) =
      rot (xy0.getD (xy0.length - 1 - j) (0, 0)) ((n : ℝ) * dalpha N) ∧
    (xy0toN xy0 N).getD (2 * n * xy0.length + xy0.length + j) (0, 0) =
      mirr (rot (xy0.getD j (0, 0)) ((n : ℝ) * dalpha N))
        (((n : ℝ) + 0.5) * dalpha N) := by
  have hnN : n < N.toNat := by omega
  constructor
  · have h1 : 2 * n * xy0.length + j = n * (2 * xy0.length) + j := by ring
    unfold xy0toN
    rw [h1, flatMap_range_getD (0, 0) (2 * xy0.length) n N.toNat
      (starBlock xy0 N) (starBlock_length xy0 N) hnN j (by omega)]
    exact starBlock_getD_left xy0 N n j hj
  · have h2 : 2 * n * xy0.length + xy0.length + j
        = n * (2 * xy0.length) + (xy0.length + j) := by ring
    unfold xy0toN
    rw [h2, flatMap_range_getD (0, 0) (2 * xy0.length) n N.toNat
      (starBlock xy0 N) (starBlock_length xy0 N) hnN (xy0.length + j) (by omega)]
    exact starBlock_getD_right xy0 N n j hj

/-- C3 witness: the theorem applied to the two-point sector
`[(1,0), (0,1)]` with `N = 2`, `n = 1`, `j = 0`. -/
theorem C3_witness : ((1:ℤ) < 2) ∧ (0 < [((1:ℝ), (0:ℝ)), ((0:ℝ), (1:ℝ))].length) ∧
    ((xy0toN [((1:ℝ), (0:ℝ)), ((0:ℝ), (1:ℝ))] 2).getD
        (2 * 1 * [((1:ℝ), (0:ℝ)), ((0:ℝ), (1:ℝ))].length + 0) (0, 0) =
      rot ([((1:ℝ), (0:ℝ)), ((0:ℝ), (1:ℝ))].getD
        ([((1:ℝ), (0:ℝ)), ((0:ℝ), (1:ℝ))].length - 1 - 0) (0, 0))
        (((1:ℕ) : ℝ) * dalpha 2) ∧
    (xy0toN [((1:ℝ), (0:ℝ)), ((0:ℝ), (1:ℝ))] 2).getD
        (2 * 1 * [((1:ℝ), (0:ℝ)), ((0:ℝ), (1:ℝ))].length +
          [((1:ℝ), (0:ℝ)), ((0:ℝ), (1:ℝ))].length + 0) (0, 0) =
      mirr (rot ([((1:ℝ), (0:ℝ)), ((0:ℝ), (1:ℝ))].getD 0 (0, 0))
        (((1:ℕ) : ℝ) * dalpha 2)) ((((1:ℕ) : ℝ) + 0.5) * dalpha 2)) :=
  ⟨by norm_num, by norm_num,
    C3_star_elements [((1:ℝ), (0:ℝ)), ((0:ℝ), (1:ℝ))] 2 1 0 (by norm_num) (by norm_num)⟩

end Igor
